import Mathlib

/-!
Shallow embedding of the `LiChao` repository (`src/src/lib.rs`): a Li Chao
tree over a bounded integer domain maintaining the minimum envelope of lines
`y = m*x + c` with `i64` saturating evaluation.

Rust `i64` values are modelled as `Int` with explicit clamping to
`[i64Min, i64Max]`; `usize` values as `Nat`.  Operations that panic in Rust
(precondition violations, debug-mode integer overflow, the defensive
assertions) are modelled as `Option` results, `none` meaning the call aborts.
The two internal recursions descend on a strictly shrinking index range; they
are embedded with an explicit structural fuel parameter, and the public
wrappers instantiate the fuel with the size of the initial range, which the
fuel-irrelevance lemmas below show is always sufficient (so the fuel never
alters the computed result; it only makes the recursion structural).
-/

def i64Min : Int := -(2 ^ 63)

def i64Max : Int := 2 ^ 63 - 1

def usizeMax : Nat := 2 ^ 64 - 1

/-- Clamp an unbounded integer into the representable `i64` range. -/
def satClamp (v : Int) : Int := max i64Min (min i64Max v)

/-- Rust `i64::saturating_mul` on in-range operands. -/
def satMul (a b : Int) : Int := satClamp (a * b)

/-- Rust `i64::saturating_add` on in-range operands. -/
def satAdd (a b : Int) : Int := satClamp (a + b)

/-- Struct `Line` from `lib.rs`: `y = m*x + c`, both coefficients `i64`. -/
structure Line where
  m : Int
  c : Int
deriving DecidableEq

/-- Rust `Line::eval`: `self.m.saturating_mul(x).saturating_add(self.c)`. -/
def Line.eval (l : Line) (x : Int) : Int := satAdd (satMul l.m x) l.c

/-- Constant `INF_VAL`: `i64::MAX`. -/
def INF_VAL : Int := i64Max

/-- Constant `NO_LINE`: the sentinel line `{ m: 0, c: INF_VAL }`. -/
def NO_LINE : Line := ⟨0, INF_VAL⟩

/-- Struct `LiChaoTree`: flat node array, lower domain bound, domain size. -/
structure LiChaoTree where
  nodes : List Line
  x_min_coord : Int
  domain_size : Nat
deriving DecidableEq

/-- Rust `LiChaoTree::new`.  The first guard is the explicit `panic!` on inverted
bounds; the next two guards are the debug-mode `i64` overflow aborts in
`x_max_coord - x_min_coord + 1`; the last is the explicit overflow guard
`domain_size > usize::MAX / 4`. -/
def LiChaoTree.new (x_min_coord x_max_coord : Int) : Option LiChaoTree :=
  if x_min_coord > x_max_coord then none
  else if x_max_coord - x_min_coord > i64Max then none
  else if x_max_coord - x_min_coord + 1 > i64Max then none
  else
    let domain_size : Nat := (x_max_coord - x_min_coord + 1).toNat
    if domain_size > usizeMax / 4 then none
    else some ⟨List.replicate (4 * domain_size) NO_LINE, x_min_coord, domain_size⟩

/-- Rust `get_x_coord_from_idx`: `self.x_min_coord + index as i64`.  (Every call
site keeps `index < domain_size ≤ 2^62`, so the cast and the addition are
exact for every tree the public API can build.) -/
def get_x_coord_from_idx (x_min_coord : Int) (index : Nat) : Int :=
  x_min_coord + (index : Int)

/-- Rust `add_line_internal`, with structural fuel.  `none` models a panic: the
defensive `Node array was too small` assertion, the debug-mode `usize`
underflow in `range_r_idx - range_l_idx`, or fuel exhaustion (shown
unreachable for the wrapper's fuel in `addLineGo_fuel_irrel`). -/
def addLineGo (x_min_coord : Int) :
    Nat → List Line → Line → Nat → Nat → Nat → Option (List Line)
  | 0, _, _, _, _, _ => none
  | fuel + 1, nodes, line_to_add, node_v_idx, range_l_idx, range_r_idx =>
    if node_v_idx ≥ nodes.length then none
    else if range_r_idx < range_l_idx then none
    else
      let range_m_idx := range_l_idx + (range_r_idx - range_l_idx) / 2
      let x_at_l := get_x_coord_from_idx x_min_coord range_l_idx
      let x_at_m := get_x_coord_from_idx x_min_coord range_m_idx
      let x_at_r := get_x_coord_from_idx x_min_coord range_r_idx
      let stored := nodes.getD node_v_idx NO_LINE
      let is_b := line_to_add.eval x_at_m < stored.eval x_at_m
      let nodes1 := if is_b then nodes.set node_v_idx line_to_add else nodes
      let carried := if is_b then stored else line_to_add
      let stored1 := if is_b then line_to_add else stored
      if carried = NO_LINE then some nodes1
      else if range_l_idx = range_r_idx then some nodes1
      else if carried.eval x_at_l < stored1.eval x_at_l then
        addLineGo x_min_coord fuel nodes1 carried (2 * node_v_idx + 1)
          range_l_idx range_m_idx
      else if carried.eval x_at_r < stored1.eval x_at_r then
        addLineGo x_min_coord fuel nodes1 carried (2 * node_v_idx + 2)
          (range_m_idx + 1) range_r_idx
      else some nodes1

/-- Rust `add_line_internal` with its natural fuel (the initial range size). -/
def add_line_internal (nodes : List Line) (x_min_coord : Int) (line : Line)
    (node_v_idx range_l_idx range_r_idx : Nat) : Option (List Line) :=
  addLineGo x_min_coord (range_r_idx - range_l_idx + 1) nodes line node_v_idx
    range_l_idx range_r_idx

/-- Rust `LiChaoTree::add_line`.  First guard: the explicit sentinel `panic!`;
second guard: the debug-mode `usize` underflow in `self.domain_size - 1`
(unreachable for trees built by `new`). -/
def LiChaoTree.add_line (t : LiChaoTree) (line : Line) : Option LiChaoTree :=
  if line = NO_LINE then none
  else if t.domain_size = 0 then none
  else
    (add_line_internal t.nodes t.x_min_coord line 0 0 (t.domain_size - 1)).map
      fun ns => ⟨ns, t.x_min_coord, t.domain_size⟩

/-- Rust `query_internal`, with structural fuel.  `none` models the defensive
`Recursive logic is bugged` panic (or fuel exhaustion, unreachable for the
wrapper's fuel); an out-of-bounds node index yields `INF_VAL` as in the
source. -/
def queryGo (nodes : List Line) (x_min_coord : Int) :
    Nat → Nat → Nat → Nat → Nat → Option Int
  | 0, _, _, _, _ => none
  | fuel + 1, node_v_idx, range_l_idx, range_r_idx, query_idx =>
    if node_v_idx ≥ nodes.length then some INF_VAL
    else if query_idx < range_l_idx ∨ query_idx > range_r_idx then none
    else
      let query_x_coord := get_x_coord_from_idx x_min_coord query_idx
      let min_val := (nodes.getD node_v_idx NO_LINE).eval query_x_coord
      if range_l_idx = range_r_idx then some min_val
      else
        let range_m_idx := range_l_idx + (range_r_idx - range_l_idx) / 2
        let child :=
          if query_idx ≤ range_m_idx then
            queryGo nodes x_min_coord fuel (2 * node_v_idx + 1)
              range_l_idx range_m_idx query_idx
          else
            queryGo nodes x_min_coord fuel (2 * node_v_idx + 2)
              (range_m_idx + 1) range_r_idx query_idx
        child.map fun c => min min_val c

/-- Rust `query_internal` with its natural fuel (the initial range size). -/
def query_internal (nodes : List Line) (x_min_coord : Int)
    (node_v_idx range_l_idx range_r_idx query_idx : Nat) : Option Int :=
  queryGo nodes x_min_coord (range_r_idx - range_l_idx + 1) node_v_idx
    range_l_idx range_r_idx query_idx

/-- Rust `LiChaoTree::query`.  The three guards model the source's single
short-circuiting bounds test: `x_coord < x_min_coord` panics; otherwise
`x_min_coord + domain_size as i64` is computed, which aborts when it
overflows `i64` (debug mode; in release the sum wraps to a value every
`i64` exceeds, so the bounds test likewise panics); otherwise
`x_coord >= x_min_coord + domain_size` panics. -/
def LiChaoTree.query (t : LiChaoTree) (x_coord : Int) : Option (Option Int) :=
  if x_coord < t.x_min_coord then none
  else if t.x_min_coord + (t.domain_size : Int) > i64Max then none
  else if x_coord ≥ t.x_min_coord + (t.domain_size : Int) then none
  else
    let query_idx := (x_coord - t.x_min_coord).toNat
    (query_internal t.nodes t.x_min_coord 0 0 (t.domain_size - 1) query_idx).map
      fun ret => if ret = INF_VAL then none else some ret

/-- Insert a list of lines left to right through `add_line`, aborting when
any single insertion aborts. -/
def insertAll (t : LiChaoTree) : List Line → Option LiChaoTree
  | [] => some t
  | l :: ls => (t.add_line l).bind fun t' => insertAll t' ls

/-- The brute-force oracle of the spec: the minimum of `line.eval x` over a
list of lines, computed with the same saturating arithmetic, `INF_VAL` when
the list is empty. -/
def oracleMin (ls : List Line) (x : Int) : Int :=
  ls.foldr (fun l acc => min (l.eval x) acc) INF_VAL

/-- Proof-side total version of `query_internal`: the minimum of the stored
lines' evaluations along the root-to-leaf descent (with the same fuel
discipline; out-of-range arguments yield the neutral `INF_VAL`). -/
def pathGo (nodes : List Line) (x_min_coord : Int) :
    Nat → Nat → Nat → Nat → Nat → Int
  | 0, _, _, _, _ => INF_VAL
  | fuel + 1, node_v_idx, range_l_idx, range_r_idx, query_idx =>
    if node_v_idx ≥ nodes.length then INF_VAL
    else if query_idx < range_l_idx ∨ query_idx > range_r_idx then INF_VAL
    else
      let mv := (nodes.getD node_v_idx NO_LINE).eval
        (get_x_coord_from_idx x_min_coord query_idx)
      if range_l_idx = range_r_idx then mv
      else
        let range_m_idx := range_l_idx + (range_r_idx - range_l_idx) / 2
        min mv
          (if query_idx ≤ range_m_idx then
            pathGo nodes x_min_coord fuel (2 * node_v_idx + 1)
              range_l_idx range_m_idx query_idx
          else
            pathGo nodes x_min_coord fuel (2 * node_v_idx + 2)
              (range_m_idx + 1) range_r_idx query_idx)

/-- Version of `pathGo` with its natural fuel. -/
def pathMin (nodes : List Line) (x_min_coord : Int)
    (node_v_idx range_l_idx range_r_idx query_idx : Nat) : Int :=
  pathGo nodes x_min_coord (range_r_idx - range_l_idx + 1) node_v_idx
    range_l_idx range_r_idx query_idx

/-- A line is tame on `[lo, hi]` when its evaluation there never saturates:
both intermediate `i64` results stay in range, and the value stays strictly
below `i64Max` (so it can never be confused with the sentinel's value). -/
def Tame (l : Line) (lo hi : Int) : Prop :=
  ∀ x : Int, lo ≤ x → x ≤ hi →
    i64Min ≤ l.m * x ∧ l.m * x ≤ i64Max ∧
    i64Min ≤ l.m * x + l.c ∧ l.m * x + l.c < i64Max

/-- Relation `Desc v j`: node index `j` lies in the (implicit, heap-numbered) subtree
rooted at node index `v`: `j` is reachable from `v` through the child maps
`v ↦ 2v+1` and `v ↦ 2v+2`. -/
inductive Desc : Nat → Nat → Prop where
  | refl (v : Nat) : Desc v v
  | left (v : Nat) {j : Nat} : Desc (2 * v + 1) j → Desc v j
  | right (v : Nat) {j : Nat} : Desc (2 * v + 2) j → Desc v j

/-- Well-formedness of the tree representation, as established by `new` and
preserved by `add_line`: the node array has exactly `4 * domain_size`
entries and the domain is nonempty. -/
def WFTree (t : LiChaoTree) : Prop :=
  t.nodes.length = 4 * t.domain_size ∧ 1 ≤ t.domain_size

/-- Trees reachable through the public interface: built by `new`, then
mutated by any sequence of successful `add_line` calls. -/
inductive Reachable : LiChaoTree → Prop where
  | new (x_min_coord x_max_coord : Int) (t : LiChaoTree) :
      LiChaoTree.new x_min_coord x_max_coord = some t → Reachable t
  | add (t : LiChaoTree) (line : Line) (t' : LiChaoTree) :
      Reachable t → t.add_line line = some t' → Reachable t'

/-- The value of a query outcome with every failure mode mapped to the
neutral element `INF_VAL` ("plus infinity"): used to state monotonicity. -/
def toVal : Option (Option Int) → Int
  | some (some v) => v
  | _ => INF_VAL

/-! ### Basic facts about the saturating arithmetic -/

theorem i64Min_le_i64Max : i64Min ≤ i64Max := by decide

theorem le_satClamp (v : Int) : i64Min ≤ satClamp v := le_max_left _ _

theorem satClamp_le (v : Int) : satClamp v ≤ i64Max :=
  max_le i64Min_le_i64Max (min_le_left _ _)

theorem satClamp_of_le (v : Int) (h1 : i64Min ≤ v) (h2 : v ≤ i64Max) :
    satClamp v = v := by
  unfold satClamp
  rw [min_eq_right h2, max_eq_right h1]

theorem satClamp_eq_ite (v : Int) :
    satClamp v =
      if v < i64Min then i64Min else if i64Max < v then i64Max else v := by
  by_cases h1 : v < i64Min
  · rw [if_pos h1]
    unfold satClamp
    rw [min_eq_right (le_trans h1.le i64Min_le_i64Max), max_eq_left h1.le]
  · rw [if_neg h1]
    by_cases h2 : i64Max < v
    · rw [if_pos h2]
      unfold satClamp
      rw [min_eq_left h2.le, max_eq_right i64Min_le_i64Max]
    · rw [if_neg h2]
      exact satClamp_of_le v (le_of_not_lt h1) (le_of_not_lt h2)

theorem eval_ge_min (l : Line) (x : Int) : i64Min ≤ l.eval x := le_satClamp _

theorem eval_le_max (l : Line) (x : Int) : l.eval x ≤ i64Max := satClamp_le _

theorem NO_LINE_eval (x : Int) : NO_LINE.eval x = i64Max := by
  show satAdd (satMul 0 x) i64Max = i64Max
  rw [satMul, zero_mul, satClamp_of_le 0 (by decide) (by decide), satAdd,
    zero_add, satClamp_of_le i64Max (by decide) (by decide)]

/-! ### Claim C9: evaluation is total, saturating, sentinel yields `i64Max` -/

/-- Claim C9: `Line.eval` is total with no failure mode, for every `(m, c, x)`
without restriction: it is the saturating addition of `c` to the saturating
multiplication `m·x`, where each step clamps to `i64Min`/`i64Max` exactly when
the exact-arithmetic result leaves the `i64` range (instead of wrapping or
raising an error) and equals the exact result otherwise; consequently the
result is always a representable `i64` value, and the sentinel evaluates to
`i64Max` at every coordinate. -/
theorem eval_total_saturating (l : Line) (x : Int) :
    satMul l.m x =
      (if l.m * x < i64Min then i64Min
       else if i64Max < l.m * x then i64Max
       else l.m * x) ∧
    l.eval x =
      (if satMul l.m x + l.c < i64Min then i64Min
       else if i64Max < satMul l.m x + l.c then i64Max
       else satMul l.m x + l.c) ∧
    i64Min ≤ l.eval x ∧ l.eval x ≤ i64Max ∧
    NO_LINE.eval x = i64Max := by
  refine ⟨satClamp_eq_ite _, ?_, eval_ge_min l x, eval_le_max l x, NO_LINE_eval x⟩
  show satAdd (satMul l.m x) l.c = _
  rw [satAdd, satClamp_eq_ite]

/-! ### Counterexamples from saturating evaluation and boundary overflow -/

/-- Claim C1 is false as stated: over the domain `[0, 8]`, after inserting
the two non-sentinel lines `(10^18, 0)` and `(2·10^18, −2·10^18)`, the query
at the in-domain coordinate `8` answers `8·10^18`, while the brute-force
oracle (same saturating arithmetic) yields `i64Max − 2·10^18`, which is
smaller.  The insertion of the second line saturates at the right end of the
domain, defeating the two-lines-cross-once argument, and the algorithm
discards it from the right half where it is in fact the minimum. -/
theorem query_ne_oracle_saturating_cex :
    (((LiChaoTree.new 0 8).bind fun t =>
        t.add_line ⟨1000000000000000000, 0⟩).bind fun t =>
        t.add_line ⟨2000000000000000000, -2000000000000000000⟩).map
        (fun t => t.query 8) = some (some (some 8000000000000000000)) ∧
    oracleMin [⟨1000000000000000000, 0⟩, ⟨2000000000000000000, -2000000000000000000⟩] 8
      = 7223372036854775807 ∧
    (8000000000000000000 : Int) ≠ 7223372036854775807 :=
  ⟨rfl, rfl, by decide⟩

/-- Claim C2 is false as stated: on the domain `[0, 0]`, inserting the
non-sentinel line `(1, i64Max)` — whose saturated evaluation at `0` is
exactly `i64Max` — leaves a tree whose query at `0` reports "no value" even
though one line was inserted. -/
theorem query_none_with_line_cex :
    ((LiChaoTree.new 0 0).bind fun t => t.add_line ⟨1, i64Max⟩).map
        (fun t => t.query 0) = some (some none) ∧
    (⟨1, i64Max⟩ : Line) ≠ NO_LINE :=
  ⟨rfl, by decide⟩

/-- Claim C3 is false as stated: the tree built by `new i64Max i64Max` has
the valid domain `[i64Max, i64Max]`, and `i64Max` lies inside the half-open
query range, yet `query i64Max` aborts, because the bounds test computes
`x_min_coord + domain_size`, which overflows `i64`. -/
theorem query_in_range_fail_cex :
    (LiChaoTree.new i64Max i64Max).map (fun t => t.query i64Max) = some none ∧
    ¬ i64Max < i64Max :=
  ⟨rfl, by decide⟩

/-- Claim C6 is false as stated: inserting the set of the two lines
`A = (2·10^18, −2·10^18)` and `B = (9·10^17, 23372036854775807)` into the
domain `[0, 16]` in the two possible orders gives different answers at the
in-domain coordinate `4` (the two lines saturate to a tie at the midpoint
coordinate `8`, and the tie is broken in favour of the incumbent, so the
order decides which line survives). -/
theorem query_order_dependent_cex :
    ((LiChaoTree.new 0 16).bind fun t => insertAll t
        [⟨2000000000000000000, -2000000000000000000⟩,
         ⟨900000000000000000, 23372036854775807⟩]).map (fun t => t.query 4)
      = some (some (some 6000000000000000000)) ∧
    ((LiChaoTree.new 0 16).bind fun t => insertAll t
        [⟨900000000000000000, 23372036854775807⟩,
         ⟨2000000000000000000, -2000000000000000000⟩]).map (fun t => t.query 4)
      = some (some (some 3623372036854775807)) ∧
    (6000000000000000000 : Int) ≠ 3623372036854775807 :=
  ⟨rfl, rfl, by decide⟩

/-- Claim C10 is false as stated: on the domain `[0, 16]`, after inserting
`(10^18, 0)` the query at `4` answers `4·10^18`; additionally inserting
`(2·10^18, −2·10^18)` — which saturates and beats the first line at the
sampled coordinates `0`, `8`, `16` while losing at `4` — evicts the first
line entirely, and the query at `4` increases to `6·10^18`. -/
theorem query_increase_cex :
    ((LiChaoTree.new 0 16).bind fun t =>
        t.add_line ⟨1000000000000000000, 0⟩).map (fun t => t.query 4)
      = some (some (some 4000000000000000000)) ∧
    (((LiChaoTree.new 0 16).bind fun t =>
        t.add_line ⟨1000000000000000000, 0⟩).bind fun t =>
        t.add_line ⟨2000000000000000000, -2000000000000000000⟩).map
        (fun t => t.query 4) = some (some (some 6000000000000000000)) ∧
    ¬ (6000000000000000000 : Int) ≤ 4000000000000000000 :=
  ⟨rfl, rfl, by decide⟩

/-! ### Claim C4: the construction contract -/

theorem new_char (x_min_coord x_max_coord : Int) :
    (LiChaoTree.new x_min_coord x_max_coord = none ↔
      x_min_coord > x_max_coord ∨
      4 * (x_max_coord - x_min_coord + 1) > (usizeMax : Int)) ∧
    ∀ t, LiChaoTree.new x_min_coord x_max_coord = some t →
      t.x_min_coord = x_min_coord ∧
      (t.domain_size : Int) = x_max_coord - x_min_coord + 1 ∧
      t.nodes = List.replicate (4 * t.domain_size) NO_LINE := by
  have husize : ((usizeMax : Nat) : Int) = 2 ^ 64 - 1 := by norm_num [usizeMax]
  have hmax63 : (i64Max : Int) = 2 ^ 63 - 1 := rfl
  have hdiv : usizeMax / 4 = 2 ^ 62 - 1 := by norm_num [usizeMax]
  simp only [LiChaoTree.new]
  split_ifs with h1 h2 h3 h4
  · exact ⟨by simp [h1], by simp⟩
  · refine ⟨by simp; right; rw [husize]; omega, by simp⟩
  · refine ⟨by simp; right; rw [husize]; omega, by simp⟩
  · have h0 : (0 : Int) ≤ x_max_coord - x_min_coord + 1 := by omega
    have h5 : (x_max_coord - x_min_coord + 1).toNat ≥ 2 ^ 62 := by omega
    have h6 : ((x_max_coord - x_min_coord + 1).toNat : Int)
        = x_max_coord - x_min_coord + 1 := Int.toNat_of_nonneg h0
    refine ⟨by simp; right; rw [husize]; omega, by simp⟩
  · have h0 : (0 : Int) ≤ x_max_coord - x_min_coord + 1 := by omega
    have h6 : ((x_max_coord - x_min_coord + 1).toNat : Int)
        = x_max_coord - x_min_coord + 1 := Int.toNat_of_nonneg h0
    have h5 : (x_max_coord - x_min_coord + 1).toNat ≤ 2 ^ 62 - 1 := by
      rw [hdiv] at h4; omega
    constructor
    · simp only [reduceCtorEq, false_iff]
      push_neg
      refine ⟨by omega, ?_⟩
      rw [husize]; omega
    · intro t ht
      injection ht with ht
      subst ht
      exact ⟨rfl, h6, rfl⟩

/-- Claim C4: construction fails exactly when the bounds are inverted or
when `4 × domain_size` (computed in exact arithmetic from the bounds) would
exceed the maximum representable array length; otherwise it returns a tree
over the requested domain whose node array is exactly `4 × domain_size`
copies of the sentinel. -/
theorem new_spec (x_min_coord x_max_coord : Int) :
    (LiChaoTree.new x_min_coord x_max_coord = none ↔
      x_min_coord > x_max_coord ∨
      4 * (x_max_coord - x_min_coord + 1) > (usizeMax : Int)) ∧
    ∀ t, LiChaoTree.new x_min_coord x_max_coord = some t →
      t.x_min_coord = x_min_coord ∧
      (t.domain_size : Int) = x_max_coord - x_min_coord + 1 ∧
      t.nodes = List.replicate (4 * t.domain_size) NO_LINE :=
  new_char x_min_coord x_max_coord

theorem new_spec_witness :
    LiChaoTree.new 5 3 = none ∧
    (⟨List.replicate 44 NO_LINE, 0, 11⟩ : LiChaoTree).nodes
      = List.replicate
          (4 * (⟨List.replicate 44 NO_LINE, 0, 11⟩ : LiChaoTree).domain_size)
          NO_LINE :=
  ⟨(new_spec 5 3).1.mpr (Or.inl (by decide)),
   ((new_spec 0 10).2 ⟨List.replicate 44 NO_LINE, 0, 11⟩ rfl).2.2⟩

/-! ### Fuel irrelevance: the recursions stop within the descent's depth -/

theorem addLineGo_fuel_irrel (x_min_coord : Int) :
    ∀ (f1 : Nat) (f2 : Nat) (nodes : List Line) (line : Line) (v l r : Nat),
      r - l < f1 → r - l < f2 →
      addLineGo x_min_coord f1 nodes line v l r
        = addLineGo x_min_coord f2 nodes line v l r := by
  intro f1
  induction f1 with
  | zero => intro f2 nodes line v l r h1 h2; omega
  | succ f1 ih =>
    intro f2 nodes line v l r h1 h2
    match f2, h2 with
    | f2 + 1, h2 =>
      simp only [addLineGo]
      split_ifs
      all_goals try rfl
      all_goals exact ih f2 _ _ _ _ _ (by omega) (by omega)

theorem queryGo_fuel_irrel (nodes : List Line) (x_min_coord : Int) :
    ∀ (f1 : Nat) (f2 : Nat) (v l r q : Nat),
      r - l < f1 → r - l < f2 →
      queryGo nodes x_min_coord f1 v l r q
        = queryGo nodes x_min_coord f2 v l r q := by
  intro f1
  induction f1 with
  | zero => intro f2 v l r q h1 h2; omega
  | succ f1 ih =>
    intro f2 v l r q h1 h2
    match f2, h2 with
    | f2 + 1, h2 =>
      simp only [queryGo]
      split_ifs with hv hq hlr hm
      all_goals try rfl
      · rw [ih f2 _ _ _ _ (by omega) (by omega)]
      · rw [ih f2 _ _ _ _ (by omega) (by omega)]

theorem pathGo_fuel_irrel (nodes : List Line) (x_min_coord : Int) :
    ∀ (f1 : Nat) (f2 : Nat) (v l r q : Nat),
      r - l < f1 → r - l < f2 →
      pathGo nodes x_min_coord f1 v l r q
        = pathGo nodes x_min_coord f2 v l r q := by
  intro f1
  induction f1 with
  | zero => intro f2 v l r q h1 h2; omega
  | succ f1 ih =>
    intro f2 v l r q h1 h2
    match f2, h2 with
    | f2 + 1, h2 =>
      simp only [pathGo]
      split_ifs with hv hq hlr hm
      all_goals try rfl
      · rw [ih f2 _ _ _ _ (by omega) (by omega)]
      · rw [ih f2 _ _ _ _ (by omega) (by omega)]

theorem addLineGo_log_fuel (x_min_coord : Int) :
    ∀ (fuel : Nat) (nodes : List Line) (line : Line) (v l r : Nat),
      r - l < 2 ^ fuel →
      addLineGo x_min_coord (fuel + 1) nodes line v l r
        = add_line_internal nodes x_min_coord line v l r := by
  intro fuel
  induction fuel with
  | zero =>
    intro nodes line v l r h
    have h0 : r - l = 0 := by omega
    rw [add_line_internal, h0]
  | succ fuel ih =>
    intro nodes line v l r h
    have hp : (2 : Nat) ^ (fuel + 1) = 2 * 2 ^ fuel := by rw [pow_succ]; ring
    rw [add_line_internal]
    conv_lhs => rw [addLineGo]
    conv_rhs => rw [addLineGo]
    dsimp only
    split_ifs
    all_goals try rfl
    all_goals
      exact (ih _ _ _ _ _ (by omega)).trans
        (addLineGo_fuel_irrel x_min_coord _ _ _ _ _ _ _ (by omega) (by omega))

theorem queryGo_log_fuel (nodes : List Line) (x_min_coord : Int) :
    ∀ (fuel : Nat) (v l r q : Nat),
      r - l < 2 ^ fuel →
      queryGo nodes x_min_coord (fuel + 1) v l r q
        = query_internal nodes x_min_coord v l r q := by
  intro fuel
  induction fuel with
  | zero =>
    intro v l r q h
    have h0 : r - l = 0 := by omega
    rw [query_internal, h0]
  | succ fuel ih =>
    intro v l r q h
    have hp : (2 : Nat) ^ (fuel + 1) = 2 * 2 ^ fuel := by rw [pow_succ]; ring
    rw [query_internal]
    conv_lhs => rw [queryGo]
    conv_rhs => rw [queryGo]
    dsimp only
    split_ifs
    all_goals try rfl
    all_goals
      (refine congrArg (Option.map _) ?_
       exact (ih _ _ _ _ (by omega)).trans
         (queryGo_fuel_irrel nodes x_min_coord _ _ _ _ _ _ (by omega) (by omega)))

theorem queryGo_eq_pathGo (nodes : List Line) (x_min_coord : Int) :
    ∀ (fuel : Nat) (v l r q : Nat), r - l < fuel → l ≤ q → q ≤ r →
      queryGo nodes x_min_coord fuel v l r q
        = some (pathGo nodes x_min_coord fuel v l r q) := by
  intro fuel
  induction fuel with
  | zero => intro v l r q h1 h2 h3; exfalso; omega
  | succ fuel ih =>
    intro v l r q h1 h2 h3
    simp only [queryGo, pathGo]
    split_ifs with hv hq hlr hm
    · rfl
    · exfalso; omega
    · rfl
    · rw [ih _ _ _ _ (by omega) (by omega) (by omega)]; rfl
    · rw [ih _ _ _ _ (by omega) (by omega) (by omega)]; rfl

theorem addLineGo_some (x_min_coord : Int) :
    ∀ (fuel : Nat) (nodes : List Line) (line : Line) (v l r d n : Nat),
      r - l < fuel → l ≤ r → 1 ≤ n → 4 * n ≤ nodes.length →
      v + 2 ≤ 2 ^ (d + 1) → 2 ^ d ≤ 2 * n → r - l ≤ (n - 1) / 2 ^ d →
      ∃ nodes', addLineGo x_min_coord fuel nodes line v l r = some nodes' ∧
        nodes'.length = nodes.length := by
  intro fuel
  induction fuel with
  | zero => intro nodes line v l r d n hf; intro _ _ _ _ _ _; exfalso; omega
  | succ fuel ih =>
    intro nodes line v l r d n hf hlr hn hlen hv hd hL
    have hp1 : (2 : Nat) ^ (d + 1) = 2 * 2 ^ d := by rw [pow_succ]; ring
    have hp2 : (2 : Nat) ^ (d + 2) = 2 * 2 ^ (d + 1) := by rw [pow_succ]; ring
    have hvlen : v < nodes.length := by omega
    simp only [addLineGo]
    split_ifs
    any_goals (exfalso; omega)
    any_goals exact ⟨_, rfl, by simp⟩
    all_goals
      (have hlt : l < r := by omega
       have hpos : 0 < (2 : Nat) ^ d := pow_pos (by norm_num) d
       have hdn : 2 ^ d ≤ n - 1 :=
         (Nat.one_le_div_iff hpos).mp (le_trans (by omega) hL)
       have hdd : (n - 1) / 2 ^ d / 2 = (n - 1) / 2 ^ (d + 1) := by
         rw [Nat.div_div_eq_div_mul, pow_succ]
       have hhalf : (r - l) / 2 ≤ (n - 1) / 2 ^ (d + 1) :=
         hdd ▸ Nat.div_le_div_right hL
       refine (ih _ _ _ _ _ (d + 1) n ?_ ?_ hn ?_ ?_ ?_ ?_).imp
         fun ns' h => ⟨h.1, ?_⟩
       · omega
       · omega
       · simpa using hlen
       · omega
       · omega
       · omega
       · simpa using h.2)

/-! ### Well-formedness of reachable trees -/

theorem WFTree_new (x_min_coord x_max_coord : Int) (t : LiChaoTree)
    (h : LiChaoTree.new x_min_coord x_max_coord = some t) :
    WFTree t ∧ t.x_min_coord = x_min_coord ∧
      (t.domain_size : Int) = x_max_coord - x_min_coord + 1 := by
  obtain ⟨hx, hds, hnodes⟩ := (new_char x_min_coord x_max_coord).2 t h
  have hne : LiChaoTree.new x_min_coord x_max_coord ≠ none := by
    rw [h]; exact Option.some_ne_none t
  have hiff := (new_char x_min_coord x_max_coord).1
  have hle : x_min_coord ≤ x_max_coord := by
    by_contra hc
    exact hne (hiff.mpr (Or.inl (by omega)))
  have hds1 : 1 ≤ t.domain_size := by
    by_contra hc
    have : t.domain_size = 0 := by omega
    rw [this] at hds
    simp at hds
    omega
  exact ⟨⟨by rw [hnodes]; simp, hds1⟩, hx, hds⟩

theorem add_line_internal_some (t : LiChaoTree) (line : Line) (hwf : WFTree t) :
    ∃ ns, add_line_internal t.nodes t.x_min_coord line 0 0 (t.domain_size - 1)
        = some ns ∧ ns.length = t.nodes.length := by
  obtain ⟨hlen, hds⟩ := hwf
  have h1 : (2 : Nat) ^ (0 + 1) = 2 := by norm_num
  have h0 : (2 : Nat) ^ 0 = 1 := by norm_num
  exact addLineGo_some t.x_min_coord (t.domain_size - 1 - 0 + 1) t.nodes line
    0 0 (t.domain_size - 1) 0 t.domain_size (by omega) (by omega) hds
    (by omega) (by norm_num) (by simp only [pow_zero]; omega)
    (by simp only [pow_zero, Nat.div_one]; omega)

theorem add_line_some_of_ne (t : LiChaoTree) (line : Line) (hwf : WFTree t)
    (hline : line ≠ NO_LINE) :
    ∃ t', t.add_line line = some t' ∧ WFTree t' ∧
      t'.x_min_coord = t.x_min_coord ∧ t'.domain_size = t.domain_size := by
  obtain ⟨ns, hns, hlen⟩ := add_line_internal_some t line hwf
  refine ⟨⟨ns, t.x_min_coord, t.domain_size⟩, ?_, ⟨?_, hwf.2⟩, rfl, rfl⟩
  · rw [LiChaoTree.add_line, if_neg hline,
      if_neg (by have := hwf.2; omega : ¬t.domain_size = 0), hns]
    rfl
  · show ns.length = 4 * t.domain_size
    rw [hlen, hwf.1]

theorem add_line_preserves (t t' : LiChaoTree) (line : Line) (hwf : WFTree t)
    (h : t.add_line line = some t') :
    WFTree t' ∧ t'.x_min_coord = t.x_min_coord ∧
      t'.domain_size = t.domain_size := by
  by_cases hline : line = NO_LINE
  · rw [LiChaoTree.add_line, if_pos hline] at h; cases h
  · obtain ⟨t'', h2, hrest⟩ := add_line_some_of_ne t line hwf hline
    rw [h2] at h
    injection h with h
    rw [← h]
    exact hrest

theorem Reachable_WFTree (t : LiChaoTree) (h : Reachable t) : WFTree t := by
  induction h with
  | new x_min_coord x_max_coord t hnew => exact (WFTree_new _ _ t hnew).1
  | add t line t' _ hadd ih => exact (add_line_preserves t t' line ih hadd).1

theorem insertAll_preserves (ls : List Line) :
    ∀ (t0 t : LiChaoTree), WFTree t0 → insertAll t0 ls = some t →
      WFTree t ∧ t.x_min_coord = t0.x_min_coord ∧
        t.domain_size = t0.domain_size := by
  induction ls with
  | nil =>
    intro t0 t hwf h
    injection h with h
    rw [← h]
    exact ⟨hwf, rfl, rfl⟩
  | cons a as ih =>
    intro t0 t hwf h
    rw [insertAll] at h
    obtain ⟨t1, ht1, hrest⟩ := Option.bind_eq_some.mp h
    obtain ⟨hwf1, hx1, hd1⟩ := add_line_preserves t0 t1 a hwf ht1
    obtain ⟨hwf2, hx2, hd2⟩ := ih t1 t hwf1 hrest
    exact ⟨hwf2, hx2.trans hx1, hd2.trans hd1⟩

theorem query_internal_eq_pathMin (nodes : List Line) (x_min_coord : Int)
    (ds q : Nat) (hq : q < ds) :
    query_internal nodes x_min_coord 0 0 (ds - 1) q
      = some (pathMin nodes x_min_coord 0 0 (ds - 1) q) :=
  queryGo_eq_pathGo nodes x_min_coord (ds - 1 - 0 + 1) 0 0 (ds - 1) q
    (by omega) (by omega) (by omega)

/-! ### Claim C7: the defensive assertions are unreachable -/

/-- Claim C7: on every tree reachable through the public interface, the
insertion recursion started at the root never trips the defensive
out-of-bounds abort (the array of size `4 × domain_size` always suffices),
and the query recursion started at the root on any in-domain index never
trips the defensive index-range abort. -/
theorem internal_assertions_unreachable (t : LiChaoTree) (h : Reachable t) :
    (∀ line, add_line_internal t.nodes t.x_min_coord line 0 0
        (t.domain_size - 1) ≠ none) ∧
    (∀ q, q < t.domain_size → query_internal t.nodes t.x_min_coord 0 0
        (t.domain_size - 1) q ≠ none) := by
  have hwf := Reachable_WFTree t h
  constructor
  · intro line
    obtain ⟨ns, hns, _⟩ := add_line_internal_some t line hwf
    rw [hns]
    exact Option.some_ne_none ns
  · intro q hq
    rw [query_internal_eq_pathMin t.nodes t.x_min_coord t.domain_size q hq]
    exact Option.some_ne_none _

theorem internal_assertions_unreachable_witness :
    add_line_internal (List.replicate 4 NO_LINE) 0 ⟨1, 2⟩ 0 0 0 ≠ none ∧
    query_internal (List.replicate 4 NO_LINE) 0 0 0 0 0 ≠ none :=
  have h := internal_assertions_unreachable ⟨List.replicate 4 NO_LINE, 0, 1⟩
    (Reachable.new 0 0 ⟨List.replicate 4 NO_LINE, 0, 1⟩ rfl)
  ⟨h.1 ⟨1, 2⟩, h.2 0 (by decide)⟩

/-! ### Claim C5: insertion fails exactly on the sentinel -/

/-- Claim C5: on every reachable tree, `add_line` aborts exactly when the
supplied line is the reserved sentinel; on every other line it succeeds,
returning the updated tree (same domain), and a failing call returns no
updated state at all. -/
theorem add_line_fail_iff_sentinel (t : LiChaoTree) (h : Reachable t)
    (line : Line) :
    (t.add_line line = none ↔ line = NO_LINE) ∧
    (line ≠ NO_LINE → ∃ t', t.add_line line = some t' ∧
      t'.x_min_coord = t.x_min_coord ∧ t'.domain_size = t.domain_size) := by
  have hwf := Reachable_WFTree t h
  constructor
  · constructor
    · intro hnone
      by_contra hne
      obtain ⟨t', ht', _⟩ := add_line_some_of_ne t line hwf hne
      rw [ht'] at hnone
      cases hnone
    · intro hsent
      rw [LiChaoTree.add_line, if_pos hsent]
  · intro hne
    obtain ⟨t', ht', _, hrest⟩ := add_line_some_of_ne t line hwf hne
    exact ⟨t', ht', hrest⟩

theorem add_line_fail_iff_sentinel_witness :
    ((⟨List.replicate 4 NO_LINE, 0, 1⟩ : LiChaoTree).add_line NO_LINE = none) ∧
    ∃ t', (⟨List.replicate 4 NO_LINE, 0, 1⟩ : LiChaoTree).add_line ⟨1, 2⟩
        = some t' ∧ t'.x_min_coord = 0 ∧ t'.domain_size = 1 :=
  have h := add_line_fail_iff_sentinel ⟨List.replicate 4 NO_LINE, 0, 1⟩
    (Reachable.new 0 0 ⟨List.replicate 4 NO_LINE, 0, 1⟩ rfl)
  ⟨(h NO_LINE).1.mpr rfl, (h ⟨1, 2⟩).2 (by decide)⟩

/-! ### Claim C8: termination within logarithmic recursion depth -/

/-- Claim C8: on every reachable tree, both recursions run to completion
within `log2 domain_size + 2` nested invocations: giving the fueled
recursions that much fuel already computes the same result as the full
(range-sized-fuel) functions, because the covered index range at least
halves at every level and each level spends at most one recursive call. -/
theorem recursion_depth_log_bound (t : LiChaoTree) (h : Reachable t)
    (line : Line) (q : Nat) (hq : q < t.domain_size) :
    addLineGo t.x_min_coord (Nat.log 2 t.domain_size + 2) t.nodes line 0 0
        (t.domain_size - 1)
      = add_line_internal t.nodes t.x_min_coord line 0 0 (t.domain_size - 1) ∧
    queryGo t.nodes t.x_min_coord (Nat.log 2 t.domain_size + 2) 0 0
        (t.domain_size - 1) q
      = query_internal t.nodes t.x_min_coord 0 0 (t.domain_size - 1) q := by
  have hlog : t.domain_size < 2 ^ (Nat.log 2 t.domain_size + 1) :=
    Nat.lt_pow_succ_log_self (by norm_num) t.domain_size
  constructor
  · exact addLineGo_log_fuel t.x_min_coord (Nat.log 2 t.domain_size + 1)
      t.nodes line 0 0 (t.domain_size - 1) (by omega)
  · exact queryGo_log_fuel t.nodes t.x_min_coord (Nat.log 2 t.domain_size + 1)
      0 0 (t.domain_size - 1) q (by omega)

theorem recursion_depth_log_bound_witness :
    addLineGo 0 (Nat.log 2 1 + 2) (List.replicate 4 NO_LINE) ⟨1, 2⟩ 0 0 0
      = add_line_internal (List.replicate 4 NO_LINE) 0 ⟨1, 2⟩ 0 0 0 ∧
    queryGo (List.replicate 4 NO_LINE) 0 (Nat.log 2 1 + 2) 0 0 0 0
      = query_internal (List.replicate 4 NO_LINE) 0 0 0 0 0 :=
  recursion_depth_log_bound ⟨List.replicate 4 NO_LINE, 0, 1⟩
    (Reachable.new 0 0 ⟨List.replicate 4 NO_LINE, 0, 1⟩ rfl) ⟨1, 2⟩ 0
    (by decide)

/-! ### List access helpers -/

theorem getD_set_ne (l : List Line) (i j : Nat) (a : Line) (h : i ≠ j) :
    (l.set i a).getD j NO_LINE = l.getD j NO_LINE := by
  simp [List.getD_eq_getElem?_getD, List.getElem?_set_ne h]

theorem getD_set_self (l : List Line) (i : Nat) (a : Line) (h : i < l.length) :
    (l.set i a).getD i NO_LINE = a := by
  simp [List.getD_eq_getElem?_getD, List.getElem?_set_self, h]

theorem getD_mem (l : List Line) (i : Nat) (h : i < l.length) :
    l.getD i NO_LINE ∈ l := by
  rw [List.getD_eq_getElem?_getD, List.getElem?_eq_getElem h]
  exact List.getElem_mem h

/-! ### Tame lines: evaluation is exact affine, strictly below the sentinel -/

theorem Tame.eval_eq {l : Line} {lo hi : Int} (h : Tame l lo hi) {x : Int}
    (h1 : lo ≤ x) (h2 : x ≤ hi) : l.eval x = l.m * x + l.c := by
  obtain ⟨b1, b2, b3, b4⟩ := h x h1 h2
  show satAdd (satMul l.m x) l.c = l.m * x + l.c
  rw [satMul, satClamp_of_le _ b1 b2, satAdd, satClamp_of_le _ b3 (le_of_lt b4)]

theorem Tame.eval_lt {l : Line} {lo hi : Int} (h : Tame l lo hi) {x : Int}
    (h1 : lo ≤ x) (h2 : x ≤ hi) : l.eval x < i64Max := by
  rw [h.eval_eq h1 h2]
  exact (h x h1 h2).2.2.2

theorem not_tame_NO_LINE (lo hi : Int) (hlohi : lo ≤ hi) :
    ¬ Tame NO_LINE lo hi := by
  intro h
  have := (h lo le_rfl hlohi).2.2.2
  simp [NO_LINE, INF_VAL] at this

theorem tame_of_endpoints (l : Line) (lo hi : Int)
    (h1 : i64Min ≤ l.m * lo) (h2 : l.m * lo ≤ i64Max)
    (h3 : i64Min ≤ l.m * lo + l.c) (h4 : l.m * lo + l.c < i64Max)
    (h5 : i64Min ≤ l.m * hi) (h6 : l.m * hi ≤ i64Max)
    (h7 : i64Min ≤ l.m * hi + l.c) (h8 : l.m * hi + l.c < i64Max) :
    Tame l lo hi := by
  intro x hx1 hx2
  rcases le_or_lt 0 l.m with hm | hm
  · have ha : l.m * lo ≤ l.m * x := mul_le_mul_of_nonneg_left hx1 hm
    have hb : l.m * x ≤ l.m * hi := mul_le_mul_of_nonneg_left hx2 hm
    exact ⟨by omega, by omega, by omega, by omega⟩
  · have ha : l.m * x ≤ l.m * lo := mul_le_mul_of_nonpos_left hx1 (le_of_lt hm)
    have hb : l.m * hi ≤ l.m * x := mul_le_mul_of_nonpos_left hx2 (le_of_lt hm)
    exact ⟨by omega, by omega, by omega, by omega⟩

/-! ### Interpolation: an affine integer function nonnegative at the ends of
an interval (or past a sign change) is nonnegative on the rest of it -/

theorem affine_between (A B a b q : Int) (ha : 0 ≤ A * a + B)
    (hb : 0 ≤ A * b + B) (h1 : a ≤ q) (h2 : q ≤ b) : 0 ≤ A * q + B := by
  rcases eq_or_lt_of_le (le_trans h1 h2) with heq | hlt
  · have hqa : q = a := by omega
    rw [hqa]; exact ha
  · have key : (b - a) * (A * q + B)
        = (b - q) * (A * a + B) + (q - a) * (A * b + B) := by ring
    nlinarith [mul_nonneg (by omega : (0 : Int) ≤ b - q) ha,
      mul_nonneg (by omega : (0 : Int) ≤ q - a) hb]

theorem affine_step (A B a m q : Int) (ha : A * a + B < 0)
    (hm : 0 ≤ A * m + B) (h1 : a ≤ m) (h2 : m ≤ q) : 0 ≤ A * q + B := by
  have hlt : a < m := by
    rcases eq_or_lt_of_le h1 with heq | h
    · rw [← heq] at hm; omega
    · exact h
  have key : (m - a) * (A * q + B)
      = (m - q) * (A * a + B) + (q - a) * (A * m + B) := by ring
  nlinarith [mul_nonneg (by omega : (0 : Int) ≤ q - a) hm,
    mul_nonneg (by omega : (0 : Int) ≤ q - m) (by omega : (0 : Int) ≤ -(A * a + B))]

/-! ### The no-crossing arguments lifted to saturating evaluation of
sentinel-or-tame lines -/

theorem eval_le_between (lo hi : Int) (w z : Line)
    (hw : w = NO_LINE ∨ Tame w lo hi) (hz : z = NO_LINE ∨ Tame z lo hi)
    (a b q : Int) (hlo : lo ≤ a) (hhi : b ≤ hi) (h1 : a ≤ q) (h2 : q ≤ b)
    (hea : w.eval a ≤ z.eval a) (heb : w.eval b ≤ z.eval b) :
    w.eval q ≤ z.eval q := by
  have hqlo : lo ≤ q := le_trans hlo h1
  have hqhi : q ≤ hi := le_trans h2 hhi
  have halo : a ≤ hi := le_trans (le_trans h1 h2) hhi
  have hblo : lo ≤ b := le_trans hlo (le_trans h1 h2)
  rcases hz with rfl | hz
  · rw [NO_LINE_eval]; exact eval_le_max w q
  · rcases hw with rfl | hw
    · rw [NO_LINE_eval] at hea
      exact absurd hea (not_le.mpr (hz.eval_lt hlo halo))
    · rw [hw.eval_eq hlo halo, hz.eval_eq hlo halo] at hea
      rw [hw.eval_eq hblo hhi, hz.eval_eq hblo hhi] at heb
      rw [hw.eval_eq hqlo hqhi, hz.eval_eq hqlo hqhi]
      have h := affine_between (z.m - w.m) (z.c - w.c) a b q
        (by nlinarith) (by nlinarith) h1 h2
      nlinarith

theorem eval_le_step (lo hi : Int) (w z : Line)
    (hw : w = NO_LINE ∨ Tame w lo hi) (hz : z = NO_LINE ∨ Tame z lo hi)
    (a m q : Int) (hlo : lo ≤ a) (hhi : q ≤ hi) (h1 : a ≤ m) (h2 : m ≤ q)
    (hea : z.eval a < w.eval a) (hem : w.eval m ≤ z.eval m) :
    w.eval q ≤ z.eval q := by
  have hahi : a ≤ hi := le_trans (le_trans h1 h2) hhi
  have hmlo : lo ≤ m := le_trans hlo h1
  have hmhi : m ≤ hi := le_trans h2 hhi
  have hqlo : lo ≤ q := le_trans hmlo h2
  rcases hz with rfl | hz
  · rw [NO_LINE_eval] at hea
    exact absurd hea (not_lt.mpr (eval_le_max w a))
  · rcases hw with rfl | hw
    · rw [NO_LINE_eval] at hem
      exact absurd hem (not_le.mpr (hz.eval_lt hmlo hmhi))
    · rw [hw.eval_eq hlo hahi, hz.eval_eq hlo hahi] at hea
      rw [hw.eval_eq hmlo hmhi, hz.eval_eq hmlo hmhi] at hem
      rw [hw.eval_eq hqlo hhi, hz.eval_eq hqlo hhi]
      have h := affine_step (z.m - w.m) (z.c - w.c) a m q
        (by nlinarith) (by nlinarith) h1 h2
      nlinarith

/-! ### Subtree index sets in the implicit heap numbering -/

theorem Desc.le {v j : Nat} (h : Desc v j) : v ≤ j := by
  induction h with
  | refl v => exact le_rfl
  | left v _ ih => omega
  | right v _ ih => omega

theorem desc_bounds {v j : Nat} (h : Desc v j) :
    ∃ e, 2 ^ e * (v + 1) ≤ j + 1 ∧ j + 1 < 2 ^ e * (v + 2) := by
  induction h with
  | refl v => exact ⟨0, by simp, by simp⟩
  | left v h ih =>
    rename_i k
    obtain ⟨e, h1, h2⟩ := ih
    refine ⟨e + 1, ?_, ?_⟩
    · calc 2 ^ (e + 1) * (v + 1) = 2 ^ e * (2 * v + 1 + 1) := by
            rw [pow_succ]; ring
        _ ≤ k + 1 := h1
    · calc k + 1 < 2 ^ e * (2 * v + 1 + 2) := h2
        _ ≤ 2 ^ e * (2 * (v + 2)) := Nat.mul_le_mul_left _ (by omega)
        _ = 2 ^ (e + 1) * (v + 2) := by rw [pow_succ]; ring
  | right v h ih =>
    rename_i k
    obtain ⟨e, h1, h2⟩ := ih
    refine ⟨e + 1, ?_, ?_⟩
    · calc 2 ^ (e + 1) * (v + 1) = 2 ^ e * (2 * (v + 1)) := by
            rw [pow_succ]; ring
        _ ≤ 2 ^ e * (2 * v + 2 + 1) := Nat.mul_le_mul_left _ (by omega)
        _ ≤ k + 1 := h1
    · calc k + 1 < 2 ^ e * (2 * v + 2 + 2) := h2
        _ = 2 ^ (e + 1) * (v + 2) := by rw [pow_succ]; ring

theorem desc_disjoint (v j : Nat) (h1 : Desc (2 * v + 1) j)
    (h2 : Desc (2 * v + 2) j) : False := by
  obtain ⟨e, he1, he2⟩ := desc_bounds h1
  obtain ⟨f, hf1, hf2⟩ := desc_bounds h2
  rcases le_or_lt e f with hef | hef
  · have hpow : (2 : Nat) ^ e ≤ 2 ^ f := Nat.pow_le_pow_right (by norm_num) hef
    have : 2 ^ e * (2 * v + 1 + 2) ≤ 2 ^ f * (2 * v + 2 + 1) :=
      Nat.mul_le_mul hpow (by omega)
    omega
  · have hpow : (2 : Nat) ^ (f + 1) ≤ 2 ^ e :=
      Nat.pow_le_pow_right (by norm_num) (by omega)
    have hc : 2 ^ f * (2 * v + 2 + 2) ≤ 2 ^ (f + 1) * (2 * v + 1 + 1) := by
      calc 2 ^ f * (2 * v + 2 + 2) ≤ 2 ^ f * (2 * (2 * v + 1 + 1)) :=
            Nat.mul_le_mul_left _ (by omega)
        _ = 2 ^ (f + 1) * (2 * v + 1 + 1) := by rw [pow_succ]; ring
    have : 2 ^ (f + 1) * (2 * v + 1 + 1) ≤ 2 ^ e * (2 * v + 1 + 1) :=
      Nat.mul_le_mul_right _ hpow
    omega

theorem not_desc_left_self (v : Nat) : ¬ Desc (2 * v + 1) v :=
  fun h => absurd h.le (by omega)

theorem not_desc_right_self (v : Nat) : ¬ Desc (2 * v + 2) v :=
  fun h => absurd h.le (by omega)

/-! ### Structure of the path minimum -/

theorem pathMin_eq (nodes : List Line) (x_min_coord : Int) (v l r q : Nat)
    (hv : v < nodes.length) (hql : l ≤ q) (hqr : q ≤ r) :
    pathMin nodes x_min_coord v l r q =
      if l = r then (nodes.getD v NO_LINE).eval (x_min_coord + (q : Int))
      else
        min ((nodes.getD v NO_LINE).eval (x_min_coord + (q : Int)))
          (if q ≤ l + (r - l) / 2 then
            pathMin nodes x_min_coord (2 * v + 1) l (l + (r - l) / 2) q
          else
            pathMin nodes x_min_coord (2 * v + 2) (l + (r - l) / 2 + 1) r q) := by
  rw [pathMin]
  conv_lhs => rw [pathGo]
  dsimp only
  rw [if_neg (by omega), if_neg (by omega)]
  by_cases hlr : l = r
  · rw [if_pos hlr, if_pos hlr, get_x_coord_from_idx]
  · rw [if_neg hlr, if_neg hlr, get_x_coord_from_idx]
    congr 1
    by_cases hm : q ≤ l + (r - l) / 2
    · rw [if_pos hm, if_pos hm, pathMin]
      exact pathGo_fuel_irrel nodes x_min_coord _ _ _ _ _ _ (by omega) (by omega)
    · rw [if_neg hm, if_neg hm, pathMin]
      exact pathGo_fuel_irrel nodes x_min_coord _ _ _ _ _ _ (by omega) (by omega)

theorem pathMin_le_node (nodes : List Line) (x_min_coord : Int) (v l r q : Nat)
    (hv : v < nodes.length) (hql : l ≤ q) (hqr : q ≤ r) :
    pathMin nodes x_min_coord v l r q
      ≤ (nodes.getD v NO_LINE).eval (x_min_coord + (q : Int)) := by
  rw [pathMin_eq nodes x_min_coord v l r q hv hql hqr]
  by_cases hlr : l = r
  · rw [if_pos hlr]
  · rw [if_neg hlr]
    exact min_le_left _ _

theorem pathGo_congr (x_min_coord : Int) :
    ∀ (fuel : Nat) (n1 n2 : List Line) (v l r q : Nat),
      n1.length = n2.length →
      (∀ j, Desc v j → n1.getD j NO_LINE = n2.getD j NO_LINE) →
      pathGo n1 x_min_coord fuel v l r q = pathGo n2 x_min_coord fuel v l r q := by
  intro fuel
  induction fuel with
  | zero => intro n1 n2 v l r q hlen hag; rfl
  | succ fuel ih =>
    intro n1 n2 v l r q hlen hag
    simp only [pathGo]
    rw [hlen, hag v (Desc.refl v)]
    split_ifs with hv hq hlr hm
    · rfl
    · rfl
    · rfl
    · rw [ih n1 n2 _ _ _ _ hlen fun j hj => hag j (Desc.left v hj)]
    · rw [ih n1 n2 _ _ _ _ hlen fun j hj => hag j (Desc.right v hj)]

theorem pathMin_congr (x_min_coord : Int) (n1 n2 : List Line) (v l r q : Nat)
    (hlen : n1.length = n2.length)
    (hag : ∀ j, Desc v j → n1.getD j NO_LINE = n2.getD j NO_LINE) :
    pathMin n1 x_min_coord v l r q = pathMin n2 x_min_coord v l r q :=
  pathGo_congr x_min_coord _ n1 n2 v l r q hlen hag

/-! ### Insertion only touches the subtree below the starting node -/

theorem modifies_compose (nodes nodes1 ns : List Line) (line carried : Line)
    (v child : Nat)
    (hchild : ∀ j, Desc child j → Desc v j)
    (hlen1 : nodes1.length = nodes.length)
    (hU1 : ∀ j, ¬ Desc v j → nodes1.getD j NO_LINE = nodes.getD j NO_LINE)
    (hM1 : ∀ ln, ln ∈ nodes1 → ln ∈ nodes ∨ ln = line)
    (hcarried : carried ∈ nodes ∨ carried = line)
    (hL : ns.length = nodes1.length)
    (hU : ∀ j, ¬ Desc child j → ns.getD j NO_LINE = nodes1.getD j NO_LINE)
    (hM : ∀ ln, ln ∈ ns → ln ∈ nodes1 ∨ ln = carried) :
    ns.length = nodes.length ∧
    (∀ j, ¬ Desc v j → ns.getD j NO_LINE = nodes.getD j NO_LINE) ∧
    (∀ ln, ln ∈ ns → ln ∈ nodes ∨ ln = line) := by
  refine ⟨hL.trans hlen1, fun j hj => ?_, fun ln hln => ?_⟩
  · rw [hU j fun hd => hj (hchild j hd), hU1 j hj]
  · rcases hM ln hln with hin | hcar
    · exact hM1 ln hin
    · rw [hcar]; exact hcarried

theorem addLineGo_modifies (x_min_coord : Int) :
    ∀ (fuel : Nat) (nodes : List Line) (line : Line) (v l r : Nat)
      (nodes' : List Line),
      addLineGo x_min_coord fuel nodes line v l r = some nodes' →
      nodes'.length = nodes.length ∧
      (∀ j, ¬ Desc v j → nodes'.getD j NO_LINE = nodes.getD j NO_LINE) ∧
      (∀ ln, ln ∈ nodes' → ln ∈ nodes ∨ ln = line) := by
  intro fuel
  induction fuel with
  | zero => intro nodes line v l r ns h; cases h
  | succ fuel ih =>
    intro nodes line v l r ns h
    simp only [addLineGo] at h
    split_ifs at h with hv hrl hb hno hlr htl htr hno2 hlr2 htl2 htr2
    all_goals first
    | exact Option.noConfusion h
    | (injection h with h
       subst h
       first
       | exact ⟨by simp, fun j hj => getD_set_ne _ _ _ _
             (fun hvj => hj (hvj ▸ Desc.refl v)),
           fun ln hln => List.mem_or_eq_of_mem_set hln⟩
       | exact ⟨rfl, fun _ _ => rfl, fun ln hln => Or.inl hln⟩)
    | (obtain ⟨hL, hU, hM⟩ := ih _ _ _ _ _ _ h
       have hvlt : v < nodes.length := by omega
       first
       | exact modifies_compose nodes (nodes.set v line) _ line _ v (2 * v + 1)
           (fun j hd => Desc.left v hd) (List.length_set nodes v line)
           (fun j hj => getD_set_ne _ _ _ _ fun hvj => hj (hvj ▸ Desc.refl v))
           (fun ln hln => List.mem_or_eq_of_mem_set hln)
           (Or.inl (getD_mem nodes v hvlt)) hL hU hM
       | exact modifies_compose nodes (nodes.set v line) _ line _ v (2 * v + 2)
           (fun j hd => Desc.right v hd) (List.length_set nodes v line)
           (fun j hj => getD_set_ne _ _ _ _ fun hvj => hj (hvj ▸ Desc.refl v))
           (fun ln hln => List.mem_or_eq_of_mem_set hln)
           (Or.inl (getD_mem nodes v hvlt)) hL hU hM
       | exact modifies_compose nodes nodes _ line _ v (2 * v + 1)
           (fun j hd => Desc.left v hd) rfl (fun _ _ => rfl)
           (fun ln hln => Or.inl hln) (Or.inr rfl) hL hU hM
       | exact modifies_compose nodes nodes _ line _ v (2 * v + 2)
           (fun j hd => Desc.right v hd) rfl (fun _ _ => rfl)
           (fun ln hln => Or.inl hln) (Or.inr rfl) hL hU hM)

theorem pathGo_le_max (nodes : List Line) (x_min_coord : Int) :
    ∀ (fuel v l r q : Nat), pathGo nodes x_min_coord fuel v l r q ≤ i64Max := by
  intro fuel
  induction fuel with
  | zero => intro v l r q; exact le_rfl
  | succ fuel ih =>
    intro v l r q
    simp only [pathGo]
    split_ifs
    · exact le_rfl
    · exact le_rfl
    · exact eval_le_max _ _
    · exact le_trans (min_le_left _ _) (eval_le_max _ _)
    · exact le_trans (min_le_left _ _) (eval_le_max _ _)

theorem pathMin_le_max (nodes : List Line) (x_min_coord : Int)
    (v l r q : Nat) : pathMin nodes x_min_coord v l r q ≤ i64Max :=
  pathGo_le_max nodes x_min_coord _ v l r q

/-! ### The envelope update law for insertion over tame lines -/

theorem addLineGo_pathMin (x_min_coord lo hi : Int) :
    ∀ (fuel : Nat) (nodes : List Line) (line : Line) (v l r : Nat)
      (nodes' : List Line),
      addLineGo x_min_coord fuel nodes line v l r = some nodes' →
      l ≤ r →
      lo ≤ x_min_coord + (l : Int) → x_min_coord + (r : Int) ≤ hi →
      Tame line lo hi →
      (∀ ln, ln ∈ nodes → ln = NO_LINE ∨ Tame ln lo hi) →
      ∀ q, l ≤ q → q ≤ r →
        pathMin nodes' x_min_coord v l r q
          = min (pathMin nodes x_min_coord v l r q)
              (line.eval (x_min_coord + (q : Int))) := by
  intro fuel
  induction fuel with
  | zero => intro nodes line v l r ns h; exact absurd h (by simp [addLineGo])
  | succ fuel ih =>
    intro nodes line v l r ns h hlr0 hlo hhi hline hnodes
    simp only [addLineGo, get_x_coord_from_idx] at h
    split_ifs at h with hv hrl hb hno hlr htl htr hno2 hlr2 htl2 htr2
    all_goals have hvlt : v < nodes.length := by omega
    all_goals have hstored := hnodes _ (getD_mem nodes v hvlt)
    -- branch 1: swap, displaced line is the sentinel: stop
    · injection h with h; subst h
      intro q hql hqr
      have hvset : v < (nodes.set v line).length := by simpa using hvlt
      rw [pathMin_eq _ x_min_coord v l r q hvset hql hqr,
        pathMin_eq nodes x_min_coord v l r q hvlt hql hqr,
        getD_set_self nodes v line hvlt, hno, NO_LINE_eval]
      by_cases hlr' : l = r
      · rw [if_pos hlr', if_pos hlr']
        have h1 := eval_le_max line (x_min_coord + (q : Int))
        omega
      · rw [if_neg hlr', if_neg hlr']
        by_cases hqm : q ≤ l + (r - l) / 2
        · rw [if_pos hqm, if_pos hqm,
            pathMin_congr x_min_coord (nodes.set v line) nodes (2 * v + 1) l _ q
              (by simp)
              (fun j hj => getD_set_ne nodes v j line (by have := hj.le; omega))]
          have h1 := pathMin_le_max nodes x_min_coord (2 * v + 1) l
            (l + (r - l) / 2) q
          omega
        · rw [if_neg hqm, if_neg hqm,
            pathMin_congr x_min_coord (nodes.set v line) nodes (2 * v + 2) _ r q
              (by simp)
              (fun j hj => getD_set_ne nodes v j line (by have := hj.le; omega))]
          have h1 := pathMin_le_max nodes x_min_coord (2 * v + 2)
            (l + (r - l) / 2 + 1) r q
          omega
    -- branch 2: swap at a leaf
    · injection h with h; subst h
      intro q hql hqr
      have hvset : v < (nodes.set v line).length := by simpa using hvlt
      rw [pathMin_eq _ x_min_coord v l r q hvset hql hqr,
        pathMin_eq nodes x_min_coord v l r q hvlt hql hqr,
        if_pos hlr, if_pos hlr, getD_set_self nodes v line hvlt]
      have hm : l + (r - l) / 2 = q := by omega
      rw [hm] at hb
      omega
    -- branch 3: swap, recurse left carrying the displaced stored line
    · rcases hstored with hsent | htame
      · exact absurd hsent hno
      obtain ⟨hL, hU, hM⟩ := addLineGo_modifies x_min_coord fuel _ _ _ _ _ _ h
      have hIH := ih (nodes.set v line) (nodes.getD v NO_LINE) (2 * v + 1) l
        (l + (r - l) / 2) ns h (by omega) hlo (by omega) htame
        (fun ln hln => (List.mem_or_eq_of_mem_set hln).elim
          (fun hmem => hnodes ln hmem) (fun he => Or.inr (he ▸ hline)))
      intro q hql hqr
      have hvns : v < ns.length := by rw [hL]; simpa using hvlt
      rw [pathMin_eq ns x_min_coord v l r q hvns hql hqr,
        pathMin_eq nodes x_min_coord v l r q hvlt hql hqr,
        if_neg hlr, if_neg hlr,
        hU v (not_desc_left_self v), getD_set_self nodes v line hvlt]
      by_cases hqm : q ≤ l + (r - l) / 2
      · rw [if_pos hqm, if_pos hqm, hIH q hql hqm,
          pathMin_congr x_min_coord (nodes.set v line) nodes (2 * v + 1) l _ q
            (by simp)
            (fun j hj => getD_set_ne nodes v j line (by have := hj.le; omega))]
        omega
      · rw [if_neg hqm, if_neg hqm]
        have hcongr : pathMin ns x_min_coord (2 * v + 2)
            (l + (r - l) / 2 + 1) r q
            = pathMin nodes x_min_coord (2 * v + 2) (l + (r - l) / 2 + 1) r q := by
          refine pathMin_congr x_min_coord ns nodes (2 * v + 2) _ r q
            (by rw [hL]; simp) (fun j hj => ?_)
          rw [hU j fun hd => desc_disjoint v j hd hj,
            getD_set_ne nodes v j line (by have := hj.le; omega)]
        have hle : line.eval (x_min_coord + (q : Int))
            ≤ (nodes.getD v NO_LINE).eval (x_min_coord + (q : Int)) :=
          eval_le_step lo hi line (nodes.getD v NO_LINE) (Or.inr hline)
            (Or.inr htame) (x_min_coord + (l : Int))
            (x_min_coord + ((l + (r - l) / 2 : Nat) : Int))
            (x_min_coord + (q : Int)) hlo (by omega) (by omega) (by omega)
            htl (le_of_lt hb)
        rw [hcongr]
        omega
    -- branch 4: swap, recurse right carrying the displaced stored line
    · rcases hstored with hsent | htame
      · exact absurd hsent hno
      obtain ⟨hL, hU, hM⟩ := addLineGo_modifies x_min_coord fuel _ _ _ _ _ _ h
      have hIH := ih (nodes.set v line) (nodes.getD v NO_LINE) (2 * v + 2)
        (l + (r - l) / 2 + 1) r ns h (by omega) (by omega) hhi htame
        (fun ln hln => (List.mem_or_eq_of_mem_set hln).elim
          (fun hmem => hnodes ln hmem) (fun he => Or.inr (he ▸ hline)))
      intro q hql hqr
      have hvns : v < ns.length := by rw [hL]; simpa using hvlt
      rw [pathMin_eq ns x_min_coord v l r q hvns hql hqr,
        pathMin_eq nodes x_min_coord v l r q hvlt hql hqr,
        if_neg hlr, if_neg hlr,
        hU v (not_desc_right_self v), getD_set_self nodes v line hvlt]
      by_cases hqm : q ≤ l + (r - l) / 2
      · rw [if_pos hqm, if_pos hqm]
        have hcongr : pathMin ns x_min_coord (2 * v + 1) l
            (l + (r - l) / 2) q
            = pathMin nodes x_min_coord (2 * v + 1) l (l + (r - l) / 2) q := by
          refine pathMin_congr x_min_coord ns nodes (2 * v + 1) l _ q
            (by rw [hL]; simp) (fun j hj => ?_)
          rw [hU j fun hd => desc_disjoint v j hj hd,
            getD_set_ne nodes v j line (by have := hj.le; omega)]
        have hle : line.eval (x_min_coord + (q : Int))
            ≤ (nodes.getD v NO_LINE).eval (x_min_coord + (q : Int)) :=
          eval_le_between lo hi line (nodes.getD v NO_LINE) (Or.inr hline)
            (Or.inr htame) (x_min_coord + (l : Int))
            (x_min_coord + ((l + (r - l) / 2 : Nat) : Int))
            (x_min_coord + (q : Int)) hlo (by omega) (by omega) (by omega)
            (not_lt.mp htl) (le_of_lt hb)
        rw [hcongr]
        omega
      · rw [if_neg hqm, if_neg hqm, hIH q (by omega) hqr,
          pathMin_congr x_min_coord (nodes.set v line) nodes (2 * v + 2) _ r q
            (by simp)
            (fun j hj => getD_set_ne nodes v j line (by have := hj.le; omega))]
        omega
    -- branch 5: swap and stop (displaced line loses at both endpoints)
    · injection h with h; subst h
      intro q hql hqr
      have hvset : v < (nodes.set v line).length := by simpa using hvlt
      have hle : line.eval (x_min_coord + (q : Int))
          ≤ (nodes.getD v NO_LINE).eval (x_min_coord + (q : Int)) :=
        eval_le_between lo hi line (nodes.getD v NO_LINE) (Or.inr hline)
          hstored (x_min_coord + (l : Int)) (x_min_coord + (r : Int))
          (x_min_coord + (q : Int)) hlo hhi (by omega) (by omega)
          (not_lt.mp htl) (not_lt.mp htr)
      rw [pathMin_eq _ x_min_coord v l r q hvset hql hqr,
        pathMin_eq nodes x_min_coord v l r q hvlt hql hqr,
        if_neg hlr, if_neg hlr, getD_set_self nodes v line hvlt]
      by_cases hqm : q ≤ l + (r - l) / 2
      · rw [if_pos hqm, if_pos hqm,
          pathMin_congr x_min_coord (nodes.set v line) nodes (2 * v + 1) l _ q
            (by simp)
            (fun j hj => getD_set_ne nodes v j line (by have := hj.le; omega))]
        omega
      · rw [if_neg hqm, if_neg hqm,
          pathMin_congr x_min_coord (nodes.set v line) nodes (2 * v + 2) _ r q
            (by simp)
            (fun j hj => getD_set_ne nodes v j line (by have := hj.le; omega))]
        omega
    -- branch 6: no swap, the inserted line is the sentinel: impossible (tame)
    · exact absurd (hno2 ▸ hline) (not_tame_NO_LINE lo hi (by omega))
    -- branch 7: no swap at a leaf
    · injection h with h; subst h
      intro q hql hqr
      rw [pathMin_eq nodes x_min_coord v l r q hvlt hql hqr, if_pos hlr2]
      have hm : l + (r - l) / 2 = q := by omega
      rw [hm] at hb
      omega
    -- branch 8: no swap, recurse left with the inserted line
    · obtain ⟨hL, hU, hM⟩ := addLineGo_modifies x_min_coord fuel _ _ _ _ _ _ h
      have hIH := ih nodes line (2 * v + 1) l (l + (r - l) / 2) ns h
        (by omega) hlo (by omega) hline hnodes
      intro q hql hqr
      have hvns : v < ns.length := by omega
      rw [pathMin_eq ns x_min_coord v l r q hvns hql hqr,
        pathMin_eq nodes x_min_coord v l r q hvlt hql hqr,
        if_neg hlr2, if_neg hlr2, hU v (not_desc_left_self v)]
      by_cases hqm : q ≤ l + (r - l) / 2
      · rw [if_pos hqm, if_pos hqm, hIH q hql hqm]
        omega
      · rw [if_neg hqm, if_neg hqm,
          pathMin_congr x_min_coord ns nodes (2 * v + 2) (l + (r - l) / 2 + 1)
            r q (by omega) (fun j hj => hU j fun hd => desc_disjoint v j hd hj)]
        have hle : (nodes.getD v NO_LINE).eval (x_min_coord + (q : Int))
            ≤ line.eval (x_min_coord + (q : Int)) :=
          eval_le_step lo hi (nodes.getD v NO_LINE) line hstored (Or.inr hline)
            (x_min_coord + (l : Int))
            (x_min_coord + ((l + (r - l) / 2 : Nat) : Int))
            (x_min_coord + (q : Int)) hlo (by omega) (by omega) (by omega)
            htl2 (not_lt.mp hb)
        omega
    -- branch 9: no swap, recurse right with the inserted line
    · obtain ⟨hL, hU, hM⟩ := addLineGo_modifies x_min_coord fuel _ _ _ _ _ _ h
      have hIH := ih nodes line (2 * v + 2) (l + (r - l) / 2 + 1) r ns h
        (by omega) (by omega) hhi hline hnodes
      intro q hql hqr
      have hvns : v < ns.length := by omega
      rw [pathMin_eq ns x_min_coord v l r q hvns hql hqr,
        pathMin_eq nodes x_min_coord v l r q hvlt hql hqr,
        if_neg hlr2, if_neg hlr2, hU v (not_desc_right_self v)]
      by_cases hqm : q ≤ l + (r - l) / 2
      · rw [if_pos hqm, if_pos hqm,
          pathMin_congr x_min_coord ns nodes (2 * v + 1) l (l + (r - l) / 2) q
            (by omega) (fun j hj => hU j fun hd => desc_disjoint v j hj hd)]
        have hle : (nodes.getD v NO_LINE).eval (x_min_coord + (q : Int))
            ≤ line.eval (x_min_coord + (q : Int)) :=
          eval_le_between lo hi (nodes.getD v NO_LINE) line hstored
            (Or.inr hline) (x_min_coord + (l : Int))
            (x_min_coord + ((l + (r - l) / 2 : Nat) : Int))
            (x_min_coord + (q : Int)) hlo (by omega) (by omega) (by omega)
            (not_lt.mp htl2) (not_lt.mp hb)
        omega
      · rw [if_neg hqm, if_neg hqm, hIH q (by omega) hqr]
        omega
    -- branch 10: no swap and stop (inserted line loses at both endpoints)
    · injection h with h; subst h
      intro q hql hqr
      have hle : (nodes.getD v NO_LINE).eval (x_min_coord + (q : Int))
          ≤ line.eval (x_min_coord + (q : Int)) :=
        eval_le_between lo hi (nodes.getD v NO_LINE) line hstored
          (Or.inr hline) (x_min_coord + (l : Int)) (x_min_coord + (r : Int))
          (x_min_coord + (q : Int)) hlo hhi (by omega) (by omega)
          (not_lt.mp htl2) (not_lt.mp htr2)
      have hnode := pathMin_le_node nodes x_min_coord v l r q hvlt hql hqr
      omega

/-! ### The oracle and the all-sentinel tree -/

theorem getD_replicate (k i : Nat) :
    (List.replicate k NO_LINE).getD i NO_LINE = NO_LINE := by
  by_cases h : i < k
  · simp [List.getD_eq_getElem?_getD, List.getElem?_replicate, h]
  · rw [List.getD_eq_default]
    simpa using by omega

theorem pathGo_replicate (x_min_coord : Int) (k : Nat) :
    ∀ (fuel v l r q : Nat),
      pathGo (List.replicate k NO_LINE) x_min_coord fuel v l r q = INF_VAL := by
  intro fuel
  induction fuel with
  | zero => intro v l r q; rfl
  | succ fuel ih =>
    intro v l r q
    simp only [pathGo]
    split_ifs
    · rfl
    · rfl
    · rw [getD_replicate]; exact NO_LINE_eval _
    · rw [getD_replicate, NO_LINE_eval, ih]; exact min_self _
    · rw [getD_replicate, NO_LINE_eval, ih]; exact min_self _

theorem oracleMin_cons (a : Line) (as : List Line) (x : Int) :
    oracleMin (a :: as) x = min (a.eval x) (oracleMin as x) := rfl

theorem oracleMin_le_max (ls : List Line) (x : Int) :
    oracleMin ls x ≤ i64Max := by
  cases ls with
  | nil => exact le_rfl
  | cons a as =>
    rw [oracleMin_cons]
    exact le_trans (min_le_left _ _) (eval_le_max _ _)

theorem oracleMin_lt_max (ls : List Line) (lo hi x : Int) (hne : ls ≠ [])
    (htame : ∀ l ∈ ls, Tame l lo hi) (hx1 : lo ≤ x) (hx2 : x ≤ hi) :
    oracleMin ls x < i64Max := by
  cases ls with
  | nil => exact absurd rfl hne
  | cons a as =>
    rw [oracleMin_cons]
    exact lt_of_le_of_lt (min_le_left _ _)
      ((htame a (List.mem_cons_self a as)).eval_lt hx1 hx2)

theorem oracleMin_append_single (ls : List Line) (l : Line) (x : Int) :
    oracleMin (ls ++ [l]) x = min (oracleMin ls x) (l.eval x) := by
  induction ls with
  | nil =>
    show min (l.eval x) INF_VAL = min INF_VAL (l.eval x)
    exact min_comm _ _
  | cons a as ih =>
    rw [List.cons_append, oracleMin_cons, ih, oracleMin_cons]
    have h1 := eval_le_max a x
    have h2 := eval_le_max l x
    omega

theorem oracleMin_perm (ls1 ls2 : List Line) (h : ls1.Perm ls2) (x : Int) :
    oracleMin ls1 x = oracleMin ls2 x := by
  induction h with
  | nil => rfl
  | cons a _ ih => rw [oracleMin_cons, oracleMin_cons, ih]
  | swap a b l =>
    rw [oracleMin_cons, oracleMin_cons, oracleMin_cons, oracleMin_cons]
    omega
  | trans _ _ ih1 ih2 => rw [ih1, ih2]

theorem insertAll_append (ls1 ls2 : List Line) :
    ∀ t : LiChaoTree, insertAll t (ls1 ++ ls2)
      = (insertAll t ls1).bind fun u => insertAll u ls2 := by
  induction ls1 with
  | nil => intro t; rfl
  | cons a as ih =>
    intro t
    rw [List.cons_append, insertAll, insertAll, Option.bind_assoc]
    exact congrArg _ (funext fun u => ih u)

/-! ### One insertion updates the whole-tree envelope pointwise -/

theorem add_line_pathMin (x_min_coord : Int) (ds : Nat) (t t' : LiChaoTree)
    (line : Line) (hx : t.x_min_coord = x_min_coord) (hd : t.domain_size = ds)
    (hwf : WFTree t) (h : t.add_line line = some t')
    (hline : Tame line x_min_coord (x_min_coord + ((ds - 1 : Nat) : Int)))
    (hnodes : ∀ ln ∈ t.nodes, ln = NO_LINE ∨
      Tame ln x_min_coord (x_min_coord + ((ds - 1 : Nat) : Int))) :
    (∀ ln ∈ t'.nodes, ln = NO_LINE ∨
      Tame ln x_min_coord (x_min_coord + ((ds - 1 : Nat) : Int))) ∧
    ∀ q, q < ds →
      pathMin t'.nodes x_min_coord 0 0 (ds - 1) q
        = min (pathMin t.nodes x_min_coord 0 0 (ds - 1) q)
            (line.eval (x_min_coord + (q : Int))) := by
  obtain ⟨hlen, hds1⟩ := hwf
  have hsent : line ≠ NO_LINE := by
    intro hc
    exact not_tame_NO_LINE _ _ (by omega) (hc ▸ hline)
  rw [LiChaoTree.add_line, if_neg hsent,
    if_neg (by omega : ¬t.domain_size = 0), Option.map_eq_some'] at h
  obtain ⟨ns, hns, ht'⟩ := h
  rw [add_line_internal] at hns
  rw [hx, hd] at hns
  obtain ⟨hL, hU, hM⟩ := addLineGo_modifies x_min_coord _ _ _ _ _ _ _ hns
  have hpm := addLineGo_pathMin x_min_coord x_min_coord
    (x_min_coord + ((ds - 1 : Nat) : Int)) (ds - 1 - 0 + 1) t.nodes line 0 0
    (ds - 1) ns hns (by omega) (by simp) le_rfl hline hnodes
  constructor
  · intro ln hln
    rw [← ht'] at hln
    rcases hM ln hln with hmem | heq
    · exact hnodes ln hmem
    · exact Or.inr (heq ▸ hline)
  · intro q hq
    rw [← ht']
    exact hpm q (by omega) (by omega)

theorem insertAll_envelope (x_min_coord : Int) (ds : Nat) (ls : List Line) :
    ∀ (t t' : LiChaoTree),
      t.x_min_coord = x_min_coord → t.domain_size = ds → WFTree t →
      (∀ l ∈ ls, Tame l x_min_coord (x_min_coord + ((ds - 1 : Nat) : Int))) →
      (∀ ln ∈ t.nodes, ln = NO_LINE ∨
        Tame ln x_min_coord (x_min_coord + ((ds - 1 : Nat) : Int))) →
      insertAll t ls = some t' →
      ∀ q, q < ds →
        pathMin t'.nodes x_min_coord 0 0 (ds - 1) q
          = min (pathMin t.nodes x_min_coord 0 0 (ds - 1) q)
              (oracleMin ls (x_min_coord + (q : Int))) := by
  induction ls with
  | nil =>
    intro t t' hx hd hwf htame hnodes hins q hq
    injection hins with hins
    subst hins
    have h1 := pathMin_le_max t.nodes x_min_coord 0 0 (ds - 1) q
    have hIV : INF_VAL = i64Max := rfl
    show pathMin t.nodes x_min_coord 0 0 (ds - 1) q
      = min (pathMin t.nodes x_min_coord 0 0 (ds - 1) q) INF_VAL
    omega
  | cons a as ih =>
    intro t t' hx hd hwf htame hnodes hins q hq
    rw [insertAll] at hins
    obtain ⟨t1, ht1, hrest⟩ := Option.bind_eq_some.mp hins
    obtain ⟨hwf1, hx1, hd1⟩ := add_line_preserves t t1 a hwf ht1
    obtain ⟨hnodes1, hpm1⟩ := add_line_pathMin x_min_coord ds t t1 a hx hd hwf
      ht1 (htame a (List.mem_cons_self a as))
      hnodes
    have hih := ih t1 t' (hx1.trans hx) (hd1.trans hd) hwf1
      (fun l hl => htame l (List.mem_cons_of_mem a hl)) hnodes1 hrest q hq
    rw [hih, hpm1 q hq, oracleMin_cons]
    omega

/-! ### The master query law over tame insertions -/

theorem query_master (x_min_coord x_max_coord : Int) (t0 t : LiChaoTree)
    (ls : List Line) (hnew : LiChaoTree.new x_min_coord x_max_coord = some t0)
    (hins : insertAll t0 ls = some t)
    (htame : ∀ l ∈ ls, Tame l x_min_coord x_max_coord)
    (hmax : x_max_coord < i64Max) (x : Int)
    (hx1 : x_min_coord ≤ x) (hx2 : x ≤ x_max_coord) :
    t.query x = some (if oracleMin ls x = INF_VAL then none
      else some (oracleMin ls x)) := by
  obtain ⟨⟨hlen0, hds0⟩, hx0, hdsi⟩ := WFTree_new _ _ t0 hnew
  obtain ⟨⟨hlen, hds⟩, hxe, hde⟩ :=
    insertAll_preserves ls t0 t ⟨hlen0, hds0⟩ hins
  have hxt : t.x_min_coord = x_min_coord := hxe.trans hx0
  have hhieq : x_min_coord + ((t0.domain_size - 1 : Nat) : Int)
      = x_max_coord := by omega
  have htame' : ∀ l ∈ ls, Tame l x_min_coord
      (x_min_coord + ((t0.domain_size - 1 : Nat) : Int)) := by
    intro l hl
    rw [hhieq]
    exact htame l hl
  have hrep : t0.nodes = List.replicate (4 * t0.domain_size) NO_LINE :=
    ((new_char _ _).2 t0 hnew).2.2
  have hnodes0 : ∀ ln ∈ t0.nodes, ln = NO_LINE ∨ Tame ln x_min_coord
      (x_min_coord + ((t0.domain_size - 1 : Nat) : Int)) := by
    intro ln hln
    rw [hrep] at hln
    exact Or.inl (List.eq_of_mem_replicate hln)
  have hpm := insertAll_envelope x_min_coord t0.domain_size ls t0 t hx0 rfl
    ⟨hlen0, hds0⟩ htame' hnodes0 hins
  simp only [LiChaoTree.query]
  rw [if_neg (by omega), if_neg (by omega), if_neg (by omega)]
  have hqlt : (x - t.x_min_coord).toNat < t.domain_size := by
    rw [hxt, hde]
    omega
  rw [query_internal_eq_pathMin t.nodes t.x_min_coord t.domain_size _ hqlt,
    Option.map_some']
  have hq := hpm ((x - t.x_min_coord).toNat) (by rw [hxt] at hqlt; omega)
  have hrepINF : pathMin (List.replicate (4 * t0.domain_size) NO_LINE)
      x_min_coord 0 0 (t0.domain_size - 1) ((x - t.x_min_coord).toNat)
      = INF_VAL :=
    pathGo_replicate x_min_coord (4 * t0.domain_size) _ 0 0
      (t0.domain_size - 1) ((x - t.x_min_coord).toNat)
  rw [hrep, hrepINF] at hq
  have hco : x_min_coord + (((x - t.x_min_coord).toNat : Nat) : Int) = x := by
    rw [hxt]
    omega
  rw [hco] at hq
  have hor := oracleMin_le_max ls x
  have hIV : INF_VAL = i64Max := rfl
  have hval : pathMin t.nodes t.x_min_coord 0 0 (t.domain_size - 1)
      (x - t.x_min_coord).toNat = oracleMin ls x := by
    rw [hxt] at hq
    rw [hxt, hde, hq]
    omega
  rw [hval]

theorem toVal_if (v : Int) :
    toVal (some (if v = INF_VAL then none else some v)) = v := by
  by_cases h : v = INF_VAL
  · rw [if_pos h, h]; rfl
  · rw [if_neg h]; rfl

/-! ### Claim C1 (amended): the oracle property for tame lines -/

/-- Claim C1 (amended): the oracle property holds provided every inserted
line is tame on the domain — its evaluation never saturates and stays
strictly below `i64Max` — and the domain's upper bound is below `i64Max`
(so the query bounds test itself cannot overflow).  Then for every
in-domain coordinate, after any nonempty insertion sequence, `query`
returns exactly the brute-force saturating-arithmetic oracle minimum.
Without the tameness proviso the claim is false
(`query_ne_oracle_saturating_cex`). -/
theorem query_eq_oracle_of_tame (x_min_coord x_max_coord : Int)
    (t0 t : LiChaoTree) (ls : List Line)
    (hnew : LiChaoTree.new x_min_coord x_max_coord = some t0)
    (hins : insertAll t0 ls = some t)
    (htame : ∀ l ∈ ls, Tame l x_min_coord x_max_coord)
    (hmax : x_max_coord < i64Max) (hne : ls ≠ []) (x : Int)
    (hx1 : x_min_coord ≤ x) (hx2 : x ≤ x_max_coord) :
    t.query x = some (some (oracleMin ls x)) := by
  have hne' : oracleMin ls x ≠ INF_VAL :=
    ne_of_lt (oracleMin_lt_max ls x_min_coord x_max_coord x hne htame hx1 hx2)
  rw [query_master x_min_coord x_max_coord t0 t ls hnew hins htame hmax x
      hx1 hx2,
    if_neg hne']

theorem query_eq_oracle_of_tame_witness :
    (⟨Line.mk 2 3 :: List.replicate 11 NO_LINE, 0, 3⟩ : LiChaoTree).query 1
      = some (some (oracleMin [Line.mk 2 3] 1)) :=
  query_eq_oracle_of_tame 0 2 ⟨List.replicate 12 NO_LINE, 0, 3⟩
    ⟨Line.mk 2 3 :: List.replicate 11 NO_LINE, 0, 3⟩ [Line.mk 2 3] rfl rfl
    (fun l hl => by
      rw [List.mem_singleton] at hl
      subst hl
      exact tame_of_endpoints _ 0 2 (by decide) (by decide) (by decide)
        (by decide) (by decide) (by decide) (by decide) (by decide))
    (by decide) (by decide) 1 (by decide) (by decide)

/-! ### Claim C2 (amended): no value iff nothing inserted, for tame lines -/

/-- Claim C2 (amended): when every inserted line is tame on the domain and
the domain's upper bound is below `i64Max`, the query reports "no value"
exactly when the insertion sequence is empty.  Without the tameness
proviso the claim is false (`query_none_with_line_cex`). -/
theorem query_none_iff_empty_of_tame (x_min_coord x_max_coord : Int)
    (t0 t : LiChaoTree) (ls : List Line)
    (hnew : LiChaoTree.new x_min_coord x_max_coord = some t0)
    (hins : insertAll t0 ls = some t)
    (htame : ∀ l ∈ ls, Tame l x_min_coord x_max_coord)
    (hmax : x_max_coord < i64Max) (x : Int)
    (hx1 : x_min_coord ≤ x) (hx2 : x ≤ x_max_coord) :
    (t.query x = some none ↔ ls = []) := by
  rw [query_master x_min_coord x_max_coord t0 t ls hnew hins htame hmax x
    hx1 hx2]
  constructor
  · intro hnone
    by_contra hne
    have hne' : oracleMin ls x ≠ INF_VAL :=
      ne_of_lt (oracleMin_lt_max ls x_min_coord x_max_coord x hne htame
        hx1 hx2)
    rw [if_neg hne'] at hnone
    simp at hnone
  · intro hempty
    subst hempty
    have h0 : oracleMin ([] : List Line) x = INF_VAL := rfl
    rw [if_pos h0]

theorem query_none_iff_empty_of_tame_witness :
    (⟨List.replicate 12 NO_LINE, 0, 3⟩ : LiChaoTree).query 1 = some none :=
  (query_none_iff_empty_of_tame 0 2 ⟨List.replicate 12 NO_LINE, 0, 3⟩
    ⟨List.replicate 12 NO_LINE, 0, 3⟩ [] rfl rfl
    (fun l hl => absurd hl (List.not_mem_nil l))
    (by decide) 1 (by decide) (by decide)).mpr rfl

/-! ### Claim C6 (amended): order independence for tame lines -/

/-- Claim C6 (amended): for insertion sequences that are permutations of
each other and consist of tame lines over a domain whose upper bound is
below `i64Max`, the two resulting trees answer every in-domain query
identically.  Without the tameness proviso the claim is false
(`query_order_dependent_cex`). -/
theorem query_perm_invariant_of_tame (x_min_coord x_max_coord : Int)
    (t0 ta tb : LiChaoTree) (ls1 ls2 : List Line)
    (hnew : LiChaoTree.new x_min_coord x_max_coord = some t0)
    (hperm : ls1.Perm ls2)
    (hina : insertAll t0 ls1 = some ta) (hinb : insertAll t0 ls2 = some tb)
    (htame : ∀ l ∈ ls1, Tame l x_min_coord x_max_coord)
    (hmax : x_max_coord < i64Max) (x : Int)
    (hx1 : x_min_coord ≤ x) (hx2 : x ≤ x_max_coord) :
    ta.query x = tb.query x := by
  rw [query_master x_min_coord x_max_coord t0 ta ls1 hnew hina htame hmax x
      hx1 hx2,
    query_master x_min_coord x_max_coord t0 tb ls2 hnew hinb
      (fun l hl => htame l (hperm.mem_iff.mpr hl)) hmax x hx1 hx2,
    oracleMin_perm ls1 ls2 hperm x]

theorem query_perm_invariant_of_tame_witness :
    (⟨Line.mk 1 0 :: NO_LINE :: Line.mk 0 1 :: List.replicate 9 NO_LINE,
        0, 3⟩ : LiChaoTree).query 1
      = (⟨Line.mk 0 1 :: Line.mk 1 0 :: List.replicate 10 NO_LINE,
        0, 3⟩ : LiChaoTree).query 1 :=
  query_perm_invariant_of_tame 0 2 ⟨List.replicate 12 NO_LINE, 0, 3⟩
    ⟨Line.mk 1 0 :: NO_LINE :: Line.mk 0 1 :: List.replicate 9 NO_LINE, 0, 3⟩
    ⟨Line.mk 0 1 :: Line.mk 1 0 :: List.replicate 10 NO_LINE, 0, 3⟩
    [Line.mk 1 0, Line.mk 0 1] [Line.mk 0 1, Line.mk 1 0] rfl
    (List.Perm.swap (Line.mk 0 1) (Line.mk 1 0) []) rfl rfl
    (fun l hl => by
      rcases List.mem_cons.mp hl with h | h
      · subst h
        exact tame_of_endpoints _ 0 2 (by decide) (by decide) (by decide)
          (by decide) (by decide) (by decide) (by decide) (by decide)
      · rw [List.mem_singleton] at h
        subst h
        exact tame_of_endpoints _ 0 2 (by decide) (by decide) (by decide)
          (by decide) (by decide) (by decide) (by decide) (by decide))
    (by decide) 1 (by decide) (by decide)

/-! ### Claim C10 (amended): insertion monotonicity for tame lines -/

/-- Claim C10 (amended): when all lines involved are tame on the domain and
the domain's upper bound is below `i64Max`, one further insertion never
increases the queried value at any in-domain coordinate ("no value"
counting as plus infinity, via `toVal`).  Without the tameness proviso the
claim is false: an insertion can strictly increase a query result
(`query_increase_cex`). -/
theorem query_monotone_of_tame (x_min_coord x_max_coord : Int)
    (t0 t t' : LiChaoTree) (ls : List Line) (line : Line)
    (hnew : LiChaoTree.new x_min_coord x_max_coord = some t0)
    (hins : insertAll t0 ls = some t) (hadd : t.add_line line = some t')
    (htame : ∀ l ∈ ls, Tame l x_min_coord x_max_coord)
    (htline : Tame line x_min_coord x_max_coord)
    (hmax : x_max_coord < i64Max) (x : Int)
    (hx1 : x_min_coord ≤ x) (hx2 : x ≤ x_max_coord) :
    toVal (t'.query x) ≤ toVal (t.query x) := by
  have hins' : insertAll t0 (ls ++ [line]) = some t' := by
    rw [insertAll_append, hins]
    show insertAll t [line] = some t'
    rw [insertAll, hadd]
    rfl
  rw [query_master x_min_coord x_max_coord t0 t ls hnew hins htame hmax x
      hx1 hx2,
    query_master x_min_coord x_max_coord t0 t' (ls ++ [line]) hnew hins'
      (fun l hl => (List.mem_append.mp hl).elim (htame l)
        (fun h2 => by rw [List.mem_singleton] at h2; subst h2; exact htline))
      hmax x hx1 hx2,
    toVal_if, toVal_if, oracleMin_append_single ls line x]
  exact min_le_left _ _

theorem query_monotone_of_tame_witness :
    toVal ((⟨Line.mk 2 3 :: List.replicate 11 NO_LINE, 0, 3⟩
        : LiChaoTree).query 1)
      ≤ toVal ((⟨List.replicate 12 NO_LINE, 0, 3⟩ : LiChaoTree).query 1) :=
  query_monotone_of_tame 0 2 ⟨List.replicate 12 NO_LINE, 0, 3⟩
    ⟨List.replicate 12 NO_LINE, 0, 3⟩
    ⟨Line.mk 2 3 :: List.replicate 11 NO_LINE, 0, 3⟩ [] (Line.mk 2 3) rfl rfl
    rfl (fun l hl => absurd hl (List.not_mem_nil l))
    (tame_of_endpoints _ 0 2 (by decide) (by decide) (by decide) (by decide)
      (by decide) (by decide) (by decide) (by decide))
    (by decide) 1 (by decide) (by decide)

/-! ### Claim C3 (amended): the query bounds contract -/

/-- Claim C3 (amended): on every tree built by `new` (after any successful
insertion sequence) whose domain upper bound is strictly below `i64Max`,
`query` aborts exactly when the coordinate lies outside
`[x_min_coord, x_min_coord + domain_size)` (equivalently, outside
`[x_min_coord, x_max_coord]`); on every in-range coordinate it returns a
result and, the embedding being purely functional, performs no mutation.
For `x_max_coord = i64Max` the bounds test itself overflows and every
query aborts (`query_in_range_fail_cex`), which is what forces the
amendment. -/
theorem query_fail_iff_out_of_range (x_min_coord x_max_coord : Int)
    (t0 t : LiChaoTree) (ls : List Line)
    (hnew : LiChaoTree.new x_min_coord x_max_coord = some t0)
    (hins : insertAll t0 ls = some t)
    (hmax : x_max_coord < i64Max) (x_coord : Int) :
    t.query x_coord = none ↔
      (x_coord < x_min_coord ∨ x_coord > x_max_coord) := by
  obtain ⟨⟨hlen0, hds0⟩, hx0, hdsi⟩ := WFTree_new _ _ t0 hnew
  obtain ⟨⟨hlen, hds⟩, hxe, hde⟩ :=
    insertAll_preserves ls t0 t ⟨hlen0, hds0⟩ hins
  have hxt : t.x_min_coord = x_min_coord := hxe.trans hx0
  have hsum : t.x_min_coord + (t.domain_size : Int) = x_max_coord + 1 := by
    rw [hxt, hde]
    omega
  simp only [LiChaoTree.query]
  by_cases h1 : x_coord < t.x_min_coord
  · rw [if_pos h1]
    exact iff_of_true rfl (Or.inl (by omega))
  · rw [if_neg h1, if_neg (by omega)]
    by_cases h3 : x_coord ≥ t.x_min_coord + (t.domain_size : Int)
    · rw [if_pos h3]
      exact iff_of_true rfl (Or.inr (by omega))
    · rw [if_neg h3]
      have hqlt : (x_coord - t.x_min_coord).toNat < t.domain_size := by omega
      rw [query_internal_eq_pathMin t.nodes t.x_min_coord t.domain_size _
        hqlt, Option.map_some']
      exact iff_of_false (by simp) (by omega)

theorem query_fail_iff_out_of_range_witness :
    (⟨List.replicate 12 NO_LINE, 0, 3⟩ : LiChaoTree).query 5 = none ∧
    ¬ (⟨List.replicate 12 NO_LINE, 0, 3⟩ : LiChaoTree).query 1 = none :=
  ⟨(query_fail_iff_out_of_range 0 2 ⟨List.replicate 12 NO_LINE, 0, 3⟩
      ⟨List.replicate 12 NO_LINE, 0, 3⟩ [] rfl rfl (by decide) 5).mpr
    (by decide),
   fun hc => absurd ((query_fail_iff_out_of_range 0 2
      ⟨List.replicate 12 NO_LINE, 0, 3⟩ ⟨List.replicate 12 NO_LINE, 0, 3⟩ []
      rfl rfl (by decide) 1).mp hc) (by decide)⟩
